import Mathlib

/-!
Verification development for the advanced-vector repository
(src/advanced-vector/vector.h): a dynamic array `Vector<T>` built on a raw
memory holder `RawMemory<T>`.

Shallow embedding. A `Vector<T>` owns a `RawMemory` block (`data_`, with
`capacity_`) and a live-element count `size_`; slots `[0, size_)` hold
constructed elements, slots `[size_, capacity_)` are raw. We embed the
observable container state as the list of live element values plus the
capacity; `size` is the length of the list, exactly as `size_` counts the
live prefix. Element moves are modelled value-preservingly (a move
transfers the value; the model does not track moved-from states, which the
code never reads before overwriting or destroying them).

Fallible element operations (copy/move constructors and assignments that
may throw) are modelled by `Except`-returning variants driven by a throw
schedule: `throwAt = some j` makes the j-th element operation of the
modelled loop throw. `Except.error w` means the exception propagated to
the caller with the container's observable state being `w`; `Except.ok w`
means the operation succeeded with resulting state `w`.
-/

namespace AdvancedVector

/-- Observable state of `Vector<T>` (vector.h lines 95-326): the live
elements `data_[0 .. size_)` as a list, and `data_.Capacity()`. -/
structure Vector (α : Type) where
  elems : List α
  capacity : Nat
deriving DecidableEq

/-- Size() (line 266): `size_`, the number of live elements. -/
def Vector.size (v : Vector α) : Nat := v.elems.length

/-- Vector() = default (line 101): size 0, capacity 0. -/
def Vector.mkDefault (α : Type) : Vector α := ⟨[], 0⟩

/-- Vector(size_t size) (lines 103-108): allocates capacity `size` and
value-constructs `size` elements (`d` is the value-initialized element). -/
def Vector.mkSized (n : Nat) (d : α) : Vector α := ⟨List.replicate n d, n⟩

/-- Vector(const Vector& other) (lines 110-115): allocates capacity
`other.size_` and copy-constructs the `size_` elements in order. -/
def Vector.copyCtor (v : Vector α) : Vector α := ⟨v.elems, v.size⟩

/-- Vector(Vector&& other) (lines 117-120): steals the block and size;
the source becomes size 0, capacity 0. Returns (destination, source after
the move). -/
def Vector.moveCtor (v : Vector α) : Vector α × Vector α :=
  (⟨v.elems, v.capacity⟩, ⟨[], 0⟩)

/-- Swap (lines 178-181): swaps `data_` and `size_`; returns both vectors
after the exchange. -/
def Vector.SwapOp (a b : Vector α) : Vector α × Vector α := (b, a)

/-- Reserve (lines 183-197): no-op when `new_capacity <= data_.Capacity()`;
otherwise allocates a block of exactly `new_capacity`, relocates the
`size_` live elements into it (by move or copy; either way each new slot
receives the old slot's value), destroys the old elements and swaps the
new block in. `size_` is not modified. -/
def Vector.Reserve (v : Vector α) (new_capacity : Nat) : Vector α :=
  if new_capacity ≤ v.capacity then v
  else ⟨v.elems, new_capacity⟩

/-- Resize (lines 199-211): shrink destroys the trailing
`size_ - new_size` elements; grow first reserves `max(capacity*2,
new_size)` when `new_size > capacity`, then value-constructs the
`new_size - size_` trailing slots (value `d`); finally `size_ = new_size`. -/
def Vector.Resize (v : Vector α) (new_size : Nat) (d : α) : Vector α :=
  if new_size < v.size then
    ⟨v.elems.take new_size, v.capacity⟩
  else
    let v1 := if new_size > v.capacity then v.Reserve (max (v.capacity * 2) new_size) else v
    ⟨v1.elems ++ List.replicate (new_size - v.size) d, v1.capacity⟩

/-- PopBack (lines 223-229): when `size_ != 0`, destroys the last live
element and decrements `size_`; otherwise does nothing. -/
def Vector.PopBack (v : Vector α) : Vector α :=
  if v.size ≠ 0 then ⟨v.elems.dropLast, v.capacity⟩ else v

/-- EmplaceWithoutRelocation (lines 284-302), success path, at index
`pos = i`. For `i = size_` it placement-constructs at `end()`. Otherwise
it constructs a temporary from the arguments, move-constructs the last
element into slot `size_` (buffer becomes `elems ++ [last]`), shifts
`[i, size_-1)` one slot right with `std::move_backward` (buffer becomes
`take (i+1) elems ++ drop i elems`), and move-assigns the temporary into
slot `i` (`List.set i x`). The caller `Emplace` then increments `size_`,
so all `size_ + 1` constructed slots are live. -/
def Vector.EmplaceWithoutRelocation (v : Vector α) (i : Nat) (x : α) : Vector α :=
  if i = v.size then ⟨v.elems ++ [x], v.capacity⟩
  else ⟨(v.elems.take (i + 1) ++ v.elems.drop i).set i x, v.capacity⟩

/-- EmplaceWithRelocation (lines 304-322), success path, at index
`pos = i`. Allocates a block of `size_ == 0 ? 1 : size_ * 2`, constructs
the new element at slot `i` of the new block, relocates `[0, i)` to
`[0, i)` and `[i, size_)` to `[i+1, size_+1)` (move or copy; each new slot
receives the old slot's value), destroys the old elements, swaps the block
in. The caller `Emplace` then increments `size_`. -/
def Vector.EmplaceWithRelocation (v : Vector α) (i : Nat) (x : α) : Vector α :=
  ⟨v.elems.take i ++ x :: v.elems.drop i,
   if v.size = 0 then 1 else v.size * 2⟩

/-- Emplace (lines 231-246): records `position = pos - begin()`, dispatches
on `data_.Capacity() > size_` to the in-place or relocating helper,
increments `size_`, and returns `begin() + position`, i.e. the index
`position` from the start. Result: (new state, returned index). -/
def Vector.Emplace (v : Vector α) (i : Nat) (x : α) : Vector α × Nat :=
  if v.capacity > v.size then (v.EmplaceWithoutRelocation i x, i)
  else (v.EmplaceWithRelocation i x, i)

/-- Insert (lines 258-264): both overloads forward to `Emplace` at the
same position. -/
def Vector.Insert (v : Vector α) (i : Nat) (x : α) : Vector α × Nat :=
  v.Emplace i x

/-- EmplaceBack (lines 213-216): `Emplace(cend(), ...)`, returning a
reference to the new element; here the new state. -/
def Vector.EmplaceBack (v : Vector α) (x : α) : Vector α :=
  (v.Emplace v.size x).1

/-- PushBack (lines 218-221): forwards to `EmplaceBack`. -/
def Vector.PushBack (v : Vector α) (x : α) : Vector α :=
  v.EmplaceBack x

/-- Erase (lines 248-256) at index `pos = i`: `std::move(begin()+i+1,
end(), begin()+i)` shifts the elements after `i` one slot to the front
(the last slot keeps its moved-from element, modelled as its value),
`destroy_at(end()-1)` drops that last slot, `--size_`; returns
`begin() + i`. Result: (new state, returned index). -/
def Vector.Erase (v : Vector α) (i : Nat) : Vector α × Nat :=
  (⟨(v.elems.take i ++ v.elems.drop (i + 1) ++ v.elems.drop (v.size - 1)).take (v.size - 1),
    v.capacity⟩, i)

/-- Copy assignment operator= (lines 122-143), in-place branch, taken when
`rhs.size_ <= data_.Capacity()`: `copy_n` copy-assigns the common prefix
of `min(size_, rhs.size_)` elements, then either destroys the trailing
`size_ - rhs.size_` elements (shrinking) or copy-constructs the trailing
`rhs.size_ - size_` elements (growing); `size_ = rhs.size_`. -/
def Vector.copyAssignInPlace (lhs rhs : Vector α) : Vector α :=
  let c := min lhs.size rhs.size
  let afterCopy := rhs.elems.take c ++ lhs.elems.drop c
  let elems :=
    if lhs.size > rhs.size then afterCopy.take rhs.size
    else if lhs.size < rhs.size then afterCopy ++ rhs.elems.drop lhs.size
    else afterCopy
  ⟨elems, lhs.capacity⟩

/-- Copy assignment operator= (lines 122-143), success path, `this ≠ &rhs`:
in-place element-wise transformation when `rhs.size_` fits the capacity,
otherwise build a full temporary copy `Vector rhs_copy(rhs)` (capacity
`rhs.size_`) and `Swap` it in. `rhs` is const and never modified. -/
def Vector.copyAssign (lhs rhs : Vector α) : Vector α :=
  if rhs.size ≤ lhs.capacity then lhs.copyAssignInPlace rhs
  else ⟨rhs.elems, rhs.size⟩

/-- Move assignment operator= (lines 145-148): `Swap(rhs)`. Returns
(new lhs, new rhs). -/
def Vector.moveAssign (lhs rhs : Vector α) : Vector α × Vector α :=
  Vector.SwapOp lhs rhs

/-- Container invariant (spec section 3): `0 ≤ size ≤ capacity`. In `Nat`
the lower bound is automatic. -/
def Vinv (v : Vector α) : Prop := v.size ≤ v.capacity

instance (v : Vector α) : Decidable (Vinv v) := by
  unfold Vinv; infer_instance

/-- Relocation path selection in Reserve (line 189) and
EmplaceWithRelocation (line 309): the move branch
(`std::uninitialized_move_n`) is taken when
`std::is_nothrow_move_constructible_v<T> || !std::is_copy_constructible_v<T>`,
the copy branch (`std::uninitialized_copy_n`) otherwise. Arguments are the
two trait values for the element type. -/
def relocationUsesMove (isNothrowMoveConstructible isCopyConstructible : Bool) : Bool :=
  isNothrowMoveConstructible || !isCopyConstructible

/-- Modelled from the spec sentence behind C4 only (for comparison with
`relocationUsesMove`, which is the code's condition): the move path is
taken exactly when the element type's move construction is guaranteed not
to fail. -/
def relocationUsesMoveSpec (isNothrowMoveConstructible isCopyConstructible : Bool) : Bool :=
  isNothrowMoveConstructible

/-- std::uninitialized_copy_n over the source elements, with a throw
schedule: the copy constructions are numbered `start, start+1, ...` and
the one numbered `j` throws when `throwAt = some j`. Per the standard,
when a copy throws, the copies already constructed in the destination are
destroyed and the exception propagates (`error`); the source range is
never modified. -/
def uninitializedCopyFrom (throwAt : Option Nat) : Nat → List α → Except Unit (List α)
  | _, [] => .ok []
  | start, a :: rest =>
    if throwAt = some start then .error ()
    else
      match uninitializedCopyFrom throwAt (start + 1) rest with
      | .error e => .error e
      | .ok ys => .ok (a :: ys)

/-- Reserve (lines 183-197) for an element type on the copy-relocation
branch (`relocationUsesMove = false`), with a throw schedule for the copy
constructions. A local block `new_data(new_capacity)` is filled by
`uninitialized_copy_n`; only after all copies succeed are the old elements
destroyed and the block swapped in, so on a throw the destructor of
`new_data` frees the raw block (its partial copies were already destroyed
by `uninitialized_copy_n`) and `data_` / `size_` are untouched: the error
state is the original container. -/
def Vector.ReserveCopyE (throwAt : Option Nat) (v : Vector α) (new_capacity : Nat) :
    Except (Vector α) (Vector α) :=
  if new_capacity ≤ v.capacity then .ok v
  else
    match uninitializedCopyFrom throwAt 0 v.elems with
    | .error _ => .error v
    | .ok copied => .ok ⟨copied, new_capacity⟩

/-- EmplaceWithRelocation (lines 304-322) for an element type on the
copy-relocation branch, with failure injection: `failNew = true` makes the
placement construction of the new element at slot `i` of the new block
throw; `throwAt = some j` makes the copy construction of source element
`j` throw (the first `uninitialized_copy_n` copies elements `0..i-1`, the
second copies elements `i..size_-1`). All constructions into the local
`new_data` happen before `destroy_n` / `Swap`, so any throw propagates
with `data_` and `size_` untouched. (When the second copy call throws, the
new element and the first call's copies are not destroyed before the raw
block is freed — a destructor leak — but the container state is still the
original.) -/
def Vector.EmplaceWithRelocationCopyE (failNew : Bool) (throwAt : Option Nat)
    (v : Vector α) (i : Nat) (x : α) : Except (Vector α) (Vector α) :=
  if failNew then .error v
  else
    match uninitializedCopyFrom throwAt 0 (v.elems.take i) with
    | .error _ => .error v
    | .ok pre =>
      match uninitializedCopyFrom throwAt i (v.elems.drop i) with
      | .error _ => .error v
      | .ok post => .ok ⟨pre ++ x :: post, if v.size = 0 then 1 else v.size * 2⟩

/-- The sequence of move assignments performed by
`std::move_backward(begin() + position, end() - 1, end())` in
EmplaceWithoutRelocation (line 291), with a throw schedule. Assignments
run from the back: `b[j] = move(b[j-1])`, then `b[j-1] = move(b[j-2])`,
..., `count` of them, numbered `opIdx, opIdx+1, ...` in the global
operation numbering; assignment number `k` throws when `throwAt = some k`,
leaving the buffer as mutated so far. On success returns the buffer and
the next operation number. -/
def moveBackwardE [Inhabited α] (throwAt : Option Nat) :
    Nat → Nat → Nat → List α → Except (List α) (List α × Nat)
  | opIdx, _, 0, b => .ok (b, opIdx)
  | opIdx, j, count + 1, b =>
    if throwAt = some opIdx then .error b
    else moveBackwardE throwAt (opIdx + 1) (j - 1) count (b.set j (b.getD (j - 1) default))

/-- EmplaceWithoutRelocation (lines 284-302) with a throw schedule over
its element operations, numbered in execution order. For `i = size_`
(insert at end) the only operation is 0: `new (end()) T(args...)`. For
`i < size_`: operation 0 constructs the temporary `T value(args...)`,
operation 1 move-constructs the last element into slot `size_`
(`new (end()) T(...)`), operations `2 .. 2 + (size_-1-i) - 1` are the
`move_backward` assignments back-to-front, and the next operation is the
final move assignment `*(begin() + position) = value`. Each operation
either completes or throws without effect (moves are value-preserving in
the model). On a throw the catch block rethrows after
`operator delete(end())` — a call on a non-allocation interior pointer
whose heap-level damage is outside this state model — `size_` is never
incremented, so the observable live elements are the first `size_` slots
of the buffer as mutated so far. The slot `size_` element constructed by
operation 1 is left unreachable (never destroyed). -/
def Vector.EmplaceWithoutRelocationE [Inhabited α] (throwAt : Option Nat)
    (v : Vector α) (i : Nat) (x : α) : Except (Vector α) (Vector α) :=
  if i = v.size then
    if throwAt = some 0 then .error v
    else .ok ⟨v.elems ++ [x], v.capacity⟩
  else
    if throwAt = some 0 then .error v
    else if throwAt = some 1 then .error v
    else
      match moveBackwardE throwAt 2 (v.size - 1) (v.size - 1 - i)
          (v.elems ++ [v.elems.getD (v.size - 1) default]) with
      | .error b => .error ⟨b.take v.size, v.capacity⟩
      | .ok (b2, opIdx) =>
        if throwAt = some opIdx then .error ⟨b2.take v.size, v.capacity⟩
        else .ok ⟨b2.set i x, v.capacity⟩

/-- Copy assignment operator= (lines 122-143) with a throw schedule for
the copy-and-swap branch: when `rhs.size_ > data_.Capacity()`, the
temporary `Vector rhs_copy(rhs)` copy-constructs every element of `rhs`
(schedule indices `0 .. rhs.size_-1`); a throw destroys the partial copy
and propagates before `Swap`, leaving `lhs` untouched. The in-place branch
is modelled as succeeding (the claims make no exception assertion about
it). -/
def Vector.copyAssignE (throwAt : Option Nat) (lhs rhs : Vector α) :
    Except (Vector α) (Vector α) :=
  if rhs.size ≤ lhs.capacity then .ok (lhs.copyAssignInPlace rhs)
  else
    match uninitializedCopyFrom throwAt 0 rhs.elems with
    | .error _ => .error lhs
    | .ok copied => .ok ⟨copied, rhs.size⟩

/-! Helper lemmas. -/

theorem uninitializedCopyFrom_ok_eq {throwAt : Option Nat} :
    ∀ (start : Nat) {l ys : List α},
      uninitializedCopyFrom throwAt start l = Except.ok ys → ys = l := by
  intro start l
  induction l generalizing start with
  | nil =>
    intro ys h
    simp only [uninitializedCopyFrom] at h
    exact (Except.ok.inj h).symm
  | cons a rest ih =>
    intro ys h
    rw [uninitializedCopyFrom] at h
    split at h
    · cases h
    · split at h
      · cases h
      · rename_i zs hrec
        cases h
        rw [ih (start + 1) hrec]

theorem uninitializedCopyFrom_throws {j : Nat} :
    ∀ (start : Nat) (l : List α), start ≤ j → j < start + l.length →
      uninitializedCopyFrom (α := α) (some j) start l = Except.error () := by
  intro start l
  induction l generalizing start with
  | nil =>
    intro h1 h2
    simp only [List.length_nil] at h2
    omega
  | cons a rest ih =>
    intro h1 h2
    rw [uninitializedCopyFrom]
    by_cases hc : j = start
    · rw [if_pos (by rw [hc])]
    · rw [if_neg (by simp [hc])]
      rw [ih (start + 1) (by omega) (by simp at h2 ⊢; omega)]

theorem uninitializedCopyFrom_ok_of_out {j : Nat} :
    ∀ (start : Nat) (l : List α), (j < start ∨ start + l.length ≤ j) →
      uninitializedCopyFrom (α := α) (some j) start l = Except.ok l := by
  intro start l
  induction l generalizing start with
  | nil => intro h; simp [uninitializedCopyFrom]
  | cons a rest ih =>
    intro h
    rw [uninitializedCopyFrom]
    have hne : j ≠ start := by simp at h; omega
    rw [if_neg (by simp [hne])]
    rw [ih (start + 1) (by simp at h ⊢; omega)]

theorem moveBackwardE_error_length [Inhabited α] {throwAt : Option Nat} :
    ∀ {count opIdx j : Nat} {b bb : List α},
      moveBackwardE throwAt opIdx j count b = Except.error bb → bb.length = b.length := by
  intro count
  induction count with
  | zero =>
    intro opIdx j b bb h
    rw [moveBackwardE] at h
    cases h
  | succ c ih =>
    intro opIdx j b bb h
    rw [moveBackwardE] at h
    split at h
    · injection h with h1
      rw [← h1]
    · have h2 := ih h
      simpa [List.length_set] using h2

theorem moveBackwardE_ok_length [Inhabited α] {throwAt : Option Nat} :
    ∀ {count opIdx j m : Nat} {b bb : List α},
      moveBackwardE throwAt opIdx j count b = Except.ok (bb, m) → bb.length = b.length := by
  intro count
  induction count with
  | zero =>
    intro opIdx j m b bb h
    rw [moveBackwardE] at h
    injection h with h1
    have h2 : b = bb := congrArg Prod.fst h1
    rw [← h2]
  | succ c ih =>
    intro opIdx j m b bb h
    rw [moveBackwardE] at h
    split at h
    · cases h
    · have h2 := ih h
      simpa [List.length_set] using h2

theorem set_shift (es : List α) (x : α) :
    ∀ i : Nat, i < es.length →
      (es.take (i + 1) ++ es.drop i).set i x = es.take i ++ x :: es.drop i := by
  induction es with
  | nil => intro i h; simp at h
  | cons a t ih =>
    intro i h
    cases i with
    | zero => simp
    | succ n =>
      simp only [List.take_succ_cons, List.drop_succ_cons, List.cons_append, List.set_cons_succ]
      rw [ih n (by simpa using h)]

theorem insertShift_length (es : List α) (i : Nat) (x : α) (h : i ≤ es.length) :
    (es.take i ++ x :: es.drop i).length = es.length + 1 := by
  simp only [List.length_append, List.length_cons, List.length_take, List.length_drop]
  omega

theorem copyAssignInPlace_elems (lhs rhs : Vector α) :
    (lhs.copyAssignInPlace rhs).elems = rhs.elems := by
  unfold Vector.copyAssignInPlace Vector.size
  rcases lt_trichotomy lhs.elems.length rhs.elems.length with h | h | h
  · simp only [gt_iff_lt, Nat.not_lt.mpr (Nat.le_of_lt h), if_false, if_pos h,
      Nat.min_eq_left (Nat.le_of_lt h)]
    rw [List.drop_eq_nil_of_le le_rfl, List.append_nil, List.take_append_drop]
  · simp only [h, gt_iff_lt, lt_self_iff_false, if_false, Nat.min_self]
    rw [List.take_of_length_le le_rfl, List.drop_eq_nil_of_le (le_of_eq h), List.append_nil]
  · simp only [gt_iff_lt, if_pos h, Nat.min_eq_right (Nat.le_of_lt h)]
    rw [List.take_of_length_le le_rfl, List.take_left]

theorem emplace_elems (v : Vector α) (i : Nat) (x : α) (h : i ≤ v.size) :
    (v.Emplace i x).1.elems = v.elems.take i ++ x :: v.elems.drop i ∧
    (v.Emplace i x).1.capacity =
      (if v.size < v.capacity then v.capacity else if v.size = 0 then 1 else v.size * 2) := by
  unfold Vector.Emplace
  by_cases hc : v.size < v.capacity
  · rw [if_pos (show v.capacity > v.size from hc), if_pos hc]
    constructor
    · unfold Vector.EmplaceWithoutRelocation
      by_cases hie : i = v.size
      · rw [if_pos hie, hie]
        show v.elems ++ [x] = v.elems.take v.elems.length ++ x :: v.elems.drop v.elems.length
        rw [List.take_length, List.drop_length]
      · rw [if_neg hie]
        exact set_shift v.elems x i (by
          have : v.elems.length = v.size := rfl
          omega)
    · show (v.EmplaceWithoutRelocation i x).capacity = v.capacity
      unfold Vector.EmplaceWithoutRelocation
      split <;> rfl
  · rw [if_neg (show ¬v.capacity > v.size from hc), if_neg hc]
    exact ⟨rfl, rfl⟩

theorem emplaceWithoutRelocationE_error_state [Inhabited α] {v : Vector α} {i : Nat}
    {x : α} {th : Option Nat} {u : Vector α}
    (h : v.EmplaceWithoutRelocationE th i x = Except.error u) :
    u.size = v.size ∧ u.capacity = v.capacity := by
  have hb1 : (v.elems ++ [v.elems.getD (v.size - 1) default]).length = v.size + 1 := by
    simp [Vector.size]
  unfold Vector.EmplaceWithoutRelocationE at h
  split at h
  · split at h
    · cases h
      exact ⟨rfl, rfl⟩
    · cases h
  · split at h
    · cases h
      exact ⟨rfl, rfl⟩
    · split at h
      · cases h
        exact ⟨rfl, rfl⟩
      · split at h
        · rename_i b hmb
          cases h
          refine ⟨?_, rfl⟩
          show (b.take v.size).length = v.size
          rw [List.length_take]
          have hb := moveBackwardE_error_length hmb
          omega
        · rename_i b2 opIdx hmb
          split at h
          · cases h
            refine ⟨?_, rfl⟩
            show (b2.take v.size).length = v.size
            rw [List.length_take]
            have hb : b2.length = (v.elems ++ [v.elems.getD (v.size - 1) default]).length := by
              exact moveBackwardE_ok_length hmb
            omega
          · cases h

theorem emplaceWithoutRelocationE_ok_state [Inhabited α] {v : Vector α} {i : Nat}
    {x : α} {th : Option Nat} {u : Vector α}
    (h : v.EmplaceWithoutRelocationE th i x = Except.ok u) :
    u.size = v.size + 1 ∧ u.capacity = v.capacity := by
  have hb1 : (v.elems ++ [v.elems.getD (v.size - 1) default]).length = v.size + 1 := by
    simp [Vector.size]
  unfold Vector.EmplaceWithoutRelocationE at h
  split at h
  · split at h
    · cases h
    · cases h
      refine ⟨?_, rfl⟩
      show (v.elems ++ [x]).length = v.size + 1
      simp [Vector.size]
  · split at h
    · cases h
    · split at h
      · cases h
      · split at h
        · cases h
        · rename_i b2 opIdx hmb
          split at h
          · cases h
          · cases h
            refine ⟨?_, rfl⟩
            show (b2.set i x).length = v.size + 1
            rw [List.length_set]
            have hb : b2.length = (v.elems ++ [v.elems.getD (v.size - 1) default]).length := by
              exact moveBackwardE_ok_length hmb
            omega

theorem emplaceWithRelocationCopyE_error_state {v : Vector α} {i : Nat} {x : α}
    {b : Bool} {th : Option Nat} {u : Vector α}
    (h : v.EmplaceWithRelocationCopyE b th i x = Except.error u) : u = v := by
  unfold Vector.EmplaceWithRelocationCopyE at h
  split at h
  · cases h
    rfl
  · split at h
    · cases h
      rfl
    · split at h
      · cases h
        rfl
      · cases h

theorem emplaceWithRelocationCopyE_ok_state {v : Vector α} {i : Nat} {x : α}
    {b : Bool} {th : Option Nat} {u : Vector α}
    (h : v.EmplaceWithRelocationCopyE b th i x = Except.ok u) :
    u.elems = v.elems.take i ++ x :: v.elems.drop i ∧
    u.capacity = (if v.size = 0 then 1 else v.size * 2) := by
  unfold Vector.EmplaceWithRelocationCopyE at h
  split at h
  · cases h
  · split at h
    · cases h
    · rename_i pre hpre
      split at h
      · cases h
      · rename_i post hpost
        cases h
        have h1 := uninitializedCopyFrom_ok_eq 0 hpre
        have h2 := uninitializedCopyFrom_ok_eq i hpost
        exact ⟨by rw [h1, h2], rfl⟩

theorem reserveCopyE_error_state {v : Vector α} {n : Nat} {th : Option Nat} {u : Vector α}
    (h : v.ReserveCopyE th n = Except.error u) : u = v := by
  unfold Vector.ReserveCopyE at h
  split at h
  · cases h
  · split at h
    · cases h
      rfl
    · cases h

theorem reserveCopyE_ok_state {v : Vector α} {n : Nat} {th : Option Nat} {u : Vector α}
    (h : v.ReserveCopyE th n = Except.ok u) :
    u.elems = v.elems ∧ (u = v ∨ (v.capacity < n ∧ u.capacity = n)) := by
  unfold Vector.ReserveCopyE at h
  split at h
  · cases h
    exact ⟨rfl, Or.inl rfl⟩
  · rename_i hc
    split at h
    · cases h
    · rename_i copied hcopied
      cases h
      have h1 := uninitializedCopyFrom_ok_eq 0 hcopied
      exact ⟨h1 ▸ rfl, Or.inr ⟨Nat.not_le.mp hc, rfl⟩⟩

/-! Claim theorems. -/

/-- C5: Reserve(n) with n ≤ current capacity leaves size, capacity, and
every element unchanged (no reallocation, no element movement); Reserve(n)
with n > current capacity yields capacity exactly n with the same element
sequence and size as before. -/
theorem reserve_result (v : Vector α) (n : Nat) :
    (n ≤ v.capacity → v.Reserve n = v) ∧
    (v.capacity < n →
      (v.Reserve n).capacity = n ∧ (v.Reserve n).elems = v.elems ∧
      (v.Reserve n).size = v.size) := by
  constructor
  · intro h
    simp [Vector.Reserve, h]
  · intro h
    simp [Vector.Reserve, Nat.not_le.mpr h, Vector.size]

theorem reserve_result_witness :
    Vector.Reserve (⟨[1, 2], 2⟩ : Vector Nat) 2 = ⟨[1, 2], 2⟩ ∧
    (Vector.Reserve (⟨[1, 2], 2⟩ : Vector Nat) 5).capacity = 5 ∧
    (Vector.Reserve (⟨[1, 2], 2⟩ : Vector Nat) 5).elems = [1, 2] :=
  ⟨(reserve_result ⟨[1, 2], 2⟩ 2).1 (by decide),
   ((reserve_result ⟨[1, 2], 2⟩ 5).2 (by decide)).1,
   ((reserve_result ⟨[1, 2], 2⟩ 5).2 (by decide)).2.1⟩

/-- C6: Resize(n) with n < size destroys exactly the trailing size - n
elements, leaving the first n elements and the capacity unchanged;
Resize(n) with n > size grows capacity to max(capacity*2, n) when (and
only when) n > capacity, then default-constructs the n - size trailing
elements, leaving the first size elements unchanged; the resulting size is
n in both branches. -/
theorem resize_result (v : Vector α) (n : Nat) (d : α) :
    (n < v.size →
      (v.Resize n d).elems = v.elems.take n ∧ (v.Resize n d).size = n ∧
      (v.Resize n d).capacity = v.capacity) ∧
    (v.size < n →
      (v.Resize n d).elems = v.elems ++ List.replicate (n - v.size) d ∧
      (v.Resize n d).size = n ∧
      (v.Resize n d).capacity =
        (if v.capacity < n then max (v.capacity * 2) n else v.capacity)) := by
  constructor
  · intro h
    unfold Vector.Resize
    rw [if_pos h]
    refine ⟨rfl, ?_, rfl⟩
    show (v.elems.take n).length = n
    rw [List.length_take]
    exact Nat.min_eq_left (Nat.le_of_lt h)
  · intro h
    unfold Vector.Resize
    rw [if_neg (by omega)]
    have hsz : ∀ es : List α, es = v.elems ++ List.replicate (n - v.size) d →
        es.length = n := by
      intro es he
      rw [he, List.length_append, List.length_replicate]
      have : v.elems.length = v.size := rfl
      omega
    by_cases hc : v.capacity < n
    · rw [if_pos (show n > v.capacity from hc)]
      unfold Vector.Reserve
      rw [if_neg (by omega)]
      exact ⟨rfl, hsz _ rfl, (if_pos hc).symm⟩
    · rw [if_neg (show ¬ n > v.capacity from hc)]
      exact ⟨rfl, hsz _ rfl, (if_neg hc).symm⟩

theorem resize_result_witness :
    (Vector.Resize (⟨[1, 2, 3], 3⟩ : Vector Nat) 5 0).elems = [1, 2, 3, 0, 0] ∧
    (Vector.Resize (⟨[1, 2, 3], 3⟩ : Vector Nat) 5 0).capacity = 6 ∧
    (Vector.Resize (⟨[1, 2, 3, 0, 0], 6⟩ : Vector Nat) 1 0).elems = [1] ∧
    (Vector.Resize (⟨[1, 2, 3, 0, 0], 6⟩ : Vector Nat) 1 0).capacity = 6 := by
  have hg := (resize_result (⟨[1, 2, 3], 3⟩ : Vector Nat) 5 0).2 (by decide)
  have hs := (resize_result (⟨[1, 2, 3, 0, 0], 6⟩ : Vector Nat) 1 0).1 (by decide)
  exact ⟨hg.1.trans (by decide), hg.2.2.trans (by decide),
    hs.1.trans (by decide), hs.2.2⟩

/-- C8: Erase at a valid position i of a non-empty vector shifts the
elements after i one slot toward the front preserving their relative
order, destroys the vacated last live slot, and decrements size by exactly
one; capacity is unchanged. The returned position is index i. -/
theorem erase_result (v : Vector α) (i : Nat) (h : i < v.size) :
    (v.Erase i).1.elems = v.elems.take i ++ v.elems.drop (i + 1) ∧
    (v.Erase i).1.size = v.size - 1 ∧
    (v.Erase i).1.capacity = v.capacity ∧
    (v.Erase i).2 = i := by
  have hlen : (v.elems.take i ++ v.elems.drop (i + 1)).length = v.size - 1 := by
    have : v.elems.length = v.size := rfl
    rw [List.length_append, List.length_take, List.length_drop]
    omega
  have helems : (v.Erase i).1.elems = v.elems.take i ++ v.elems.drop (i + 1) := by
    show (v.elems.take i ++ v.elems.drop (i + 1) ++ v.elems.drop (v.size - 1)).take (v.size - 1)
        = v.elems.take i ++ v.elems.drop (i + 1)
    exact List.take_left' hlen
  refine ⟨helems, ?_, rfl, rfl⟩
  show (v.Erase i).1.elems.length = v.size - 1
  rw [helems]
  exact hlen

theorem erase_result_witness :
    (Vector.Erase (⟨[1, 2, 3, 4], 8⟩ : Vector Nat) 1).1.elems = [1, 3, 4] ∧
    (Vector.Erase (⟨[1, 2, 3, 4], 8⟩ : Vector Nat) 1).1.size = 3 ∧
    (Vector.Erase (⟨[1, 2, 3, 4], 8⟩ : Vector Nat) 1).1.capacity = 8 ∧
    (Vector.Erase (⟨[1, 2, 3, 4], 8⟩ : Vector Nat) 1).2 = 1 := by
  have h := erase_result (⟨[1, 2, 3, 4], 8⟩ : Vector Nat) 1 (by decide)
  exact ⟨h.1.trans (by decide), h.2.1.trans (by decide), h.2.2.1, h.2.2.2⟩

/-- C10: PopBack on an empty vector is a no-op (it cannot fail: the guard
`size_ != 0` skips the destroy); on a non-empty vector it destroys exactly
the last element and decrements size by one, leaving capacity and all
other elements unchanged. -/
theorem popback_result (v : Vector α) :
    (v.size = 0 → v.PopBack = v) ∧
    (v.size ≠ 0 → v.PopBack.elems = v.elems.dropLast ∧
      v.PopBack.size = v.size - 1 ∧ v.PopBack.capacity = v.capacity) := by
  constructor
  · intro h
    simp [Vector.PopBack, h]
  · intro h
    have h2 : v.PopBack = ⟨v.elems.dropLast, v.capacity⟩ := by
      unfold Vector.PopBack
      rw [if_pos h]
    rw [h2]
    refine ⟨rfl, ?_, rfl⟩
    show v.elems.dropLast.length = v.size - 1
    rw [List.length_dropLast]
    rfl

theorem popback_result_witness :
    Vector.PopBack (⟨[], 4⟩ : Vector Nat) = ⟨[], 4⟩ ∧
    (Vector.PopBack (⟨[1, 2], 4⟩ : Vector Nat)).elems = [1] ∧
    (Vector.PopBack (⟨[1, 2], 4⟩ : Vector Nat)).size = 1 ∧
    (Vector.PopBack (⟨[1, 2], 4⟩ : Vector Nat)).capacity = 4 := by
  have h0 := (popback_result (⟨[], 4⟩ : Vector Nat)).1 (by decide)
  have h1 := (popback_result (⟨[1, 2], 4⟩ : Vector Nat)).2 (by decide)
  exact ⟨h0, h1.1.trans (by decide), h1.2.1.trans (by decide), h1.2.2⟩

/-- C2: a successful Insert/Emplace of x at a valid position i of a vector
with elements [a0..a_{k-1}] yields [a0..a_{i-1}, x, a_i..a_{k-1}],
increments size by exactly one, and returns position i from the start;
Insert forwards to Emplace. Both the in-place path and the reallocating
path are covered by the dispatch in `Vector.Emplace`. -/
theorem emplace_insert_result (v : Vector α) (i : Nat) (x : α) (h : i ≤ v.size) :
    (v.Emplace i x).1.elems = v.elems.take i ++ x :: v.elems.drop i ∧
    (v.Emplace i x).1.size = v.size + 1 ∧
    (v.Emplace i x).2 = i ∧
    v.Insert i x = v.Emplace i x := by
  have helems : (v.Emplace i x).1.elems = v.elems.take i ++ x :: v.elems.drop i := by
    unfold Vector.Emplace
    by_cases hc : v.capacity > v.size
    · rw [if_pos hc]
      unfold Vector.EmplaceWithoutRelocation
      by_cases hie : i = v.size
      · rw [if_pos hie, hie]
        show v.elems ++ [x] = v.elems.take v.elems.length ++ x :: v.elems.drop v.elems.length
        rw [List.take_length, List.drop_length]
      · rw [if_neg hie]
        exact set_shift v.elems x i (by
          have : v.elems.length = v.size := rfl
          omega)
    · rw [if_neg hc]
      rfl
  refine ⟨helems, ?_, ?_, rfl⟩
  · show (v.Emplace i x).1.elems.length = v.size + 1
    rw [helems]
    exact insertShift_length v.elems i x h
  · unfold Vector.Emplace
    split <;> rfl

theorem emplace_insert_result_witness :
    (Vector.Emplace (⟨[1, 2, 3], 4⟩ : Vector Nat) 1 9).1.elems = [1, 9, 2, 3] ∧
    (Vector.Emplace (⟨[1, 2, 3], 4⟩ : Vector Nat) 1 9).1.size = 4 ∧
    (Vector.Emplace (⟨[1, 2, 3], 4⟩ : Vector Nat) 1 9).2 = 1 ∧
    (Vector.Emplace (⟨[1, 2, 3], 3⟩ : Vector Nat) 1 9).1.elems = [1, 9, 2, 3] := by
  have h1 := emplace_insert_result (⟨[1, 2, 3], 4⟩ : Vector Nat) 1 9 (by decide)
  have h2 := emplace_insert_result (⟨[1, 2, 3], 3⟩ : Vector Nat) 1 9 (by decide)
  exact ⟨h1.1.trans (by decide), h1.2.1.trans (by decide), h1.2.2.1,
    h2.1.trans (by decide)⟩

/-- C7: copy assignment makes the left-hand side's element sequence equal
to the right-hand side's (the right-hand side, being const, is never
modified; the embedding passes it by value). When rhs.size fits within
lhs's capacity the in-place prefix-assign / tail-destroy-or-construct
transformation is used and the capacity is unchanged (no reallocation);
when rhs.size exceeds lhs's capacity, a full temporary copy (capacity
rhs.size) is built and swapped in, and if the temporary copy throws, the
propagated state is lhs untouched. -/
theorem copy_assign_result (lhs rhs : Vector α) :
    (lhs.copyAssign rhs).elems = rhs.elems ∧
    (lhs.copyAssign rhs).size = rhs.size ∧
    (rhs.size ≤ lhs.capacity →
      lhs.copyAssign rhs = lhs.copyAssignInPlace rhs ∧
      (lhs.copyAssign rhs).capacity = lhs.capacity) ∧
    (lhs.capacity < rhs.size →
      (lhs.copyAssign rhs).capacity = rhs.size ∧
      ∀ th u, lhs.copyAssignE th rhs = Except.error u → u = lhs) := by
  have helems : (lhs.copyAssign rhs).elems = rhs.elems := by
    unfold Vector.copyAssign
    by_cases hc : rhs.size ≤ lhs.capacity
    · rw [if_pos hc]
      exact copyAssignInPlace_elems lhs rhs
    · rw [if_neg hc]
  refine ⟨helems, ?_, ?_, ?_⟩
  · show (lhs.copyAssign rhs).elems.length = rhs.size
    rw [helems]
    rfl
  · intro hc
    unfold Vector.copyAssign
    rw [if_pos hc]
    refine ⟨rfl, ?_⟩
    rfl
  · intro hc
    constructor
    · unfold Vector.copyAssign
      rw [if_neg (Nat.not_le.mpr hc)]
    · intro th u hu
      unfold Vector.copyAssignE at hu
      rw [if_neg (Nat.not_le.mpr hc)] at hu
      split at hu
      · cases hu
        rfl
      · cases hu

theorem copy_assign_result_witness :
    (Vector.copyAssign (⟨[1, 2, 3], 5⟩ : Vector Nat) ⟨[7], 9⟩).elems = [7] ∧
    (Vector.copyAssign (⟨[1, 2, 3], 5⟩ : Vector Nat) ⟨[7], 9⟩).capacity = 5 ∧
    (Vector.copyAssign (⟨[1], 2⟩ : Vector Nat) ⟨[7, 8, 9], 9⟩).elems = [7, 8, 9] ∧
    (Vector.copyAssign (⟨[1], 2⟩ : Vector Nat) ⟨[7, 8, 9], 9⟩).capacity = 3 ∧
    (⟨[1], 2⟩ : Vector Nat) = ⟨[1], 2⟩ := by
  have h1 := copy_assign_result (⟨[1, 2, 3], 5⟩ : Vector Nat) ⟨[7], 9⟩
  have h2 := copy_assign_result (⟨[1], 2⟩ : Vector Nat) ⟨[7, 8, 9], 9⟩
  exact ⟨h1.1.trans (by decide), (h1.2.2.1 (by decide)).2, h2.1.trans (by decide),
    (h2.2.2.2 (by decide)).1.trans (by decide),
    (h2.2.2.2 (by decide)).2 (some 1) ⟨[1], 2⟩ rfl⟩

/-- C1: for a full vector (size = capacity) whose element type is
relocated by copying, if an element copy construction thrown during a
growth reallocation — Reserve to a larger capacity, or the new element's
construction or any relocation copy in the reallocating Emplace path
(reached by PushBack/EmplaceBack/Insert/Emplace on a full vector) — the
failure propagates (`Except.error`) and the propagated container state is
exactly the original vector: same elements, size, and capacity. All
new-block construction happens before any old-block destruction, so no
original element is destroyed on the failing runs. -/
theorem growth_realloc_copy_throw_preserves_state (v : Vector α) (n i j : Nat) (x : α)
    (th : Option Nat) (hfull : v.size = v.capacity) (hj : j < v.size)
    (hn : v.capacity < n) (hi : i ≤ v.size) :
    v.ReserveCopyE (some j) n = Except.error v ∧
    v.EmplaceWithRelocationCopyE true th i x = Except.error v ∧
    v.EmplaceWithRelocationCopyE false (some j) i x = Except.error v := by
  have hlen : v.elems.length = v.size := rfl
  refine ⟨?_, rfl, ?_⟩
  · unfold Vector.ReserveCopyE
    rw [if_neg (Nat.not_le.mpr hn)]
    rw [uninitializedCopyFrom_throws 0 v.elems (Nat.zero_le j) (by omega)]
  · unfold Vector.EmplaceWithRelocationCopyE
    rw [if_neg (by simp)]
    by_cases hji : j < i
    · rw [uninitializedCopyFrom_throws 0 (v.elems.take i) (Nat.zero_le j)
        (by rw [List.length_take]; omega)]
    · rw [uninitializedCopyFrom_ok_of_out 0 (v.elems.take i)
        (Or.inr (by rw [List.length_take]; omega))]
      rw [uninitializedCopyFrom_throws i (v.elems.drop i) (by omega)
        (by rw [List.length_drop]; omega)]

theorem growth_realloc_copy_throw_preserves_state_witness :
    Vector.ReserveCopyE (some 2) (⟨[1, 2, 3], 3⟩ : Vector Nat) 6
      = Except.error ⟨[1, 2, 3], 3⟩ ∧
    Vector.EmplaceWithRelocationCopyE true none (⟨[1, 2, 3], 3⟩ : Vector Nat) 1 9
      = Except.error ⟨[1, 2, 3], 3⟩ ∧
    Vector.EmplaceWithRelocationCopyE false (some 2) (⟨[1, 2, 3], 3⟩ : Vector Nat) 1 9
      = Except.error ⟨[1, 2, 3], 3⟩ :=
  growth_realloc_copy_throw_preserves_state ⟨[1, 2, 3], 3⟩ 6 1 2 9 none
    (by decide) (by decide) (by decide) (by decide)

/-- C3 counterexample: with spare capacity (capacity 4, size 3), inserting
at position 0 while the second backward-shift move assignment (operation
3) throws leaves the live elements [10, 20, 20] instead of the original
[10, 20, 30]: the in-place Emplace path does not restore the original
elements when a shift assignment throws, so the claimed strong guarantee
fails. -/
theorem emplace_inplace_shift_throw_changes_elems :
    Vector.EmplaceWithoutRelocationE (some 3) (⟨[10, 20, 30], 4⟩ : Vector Nat) 0 99
      = Except.error ⟨[10, 20, 20], 4⟩ ∧
    (⟨[10, 20, 20], 4⟩ : Vector Nat) ≠ ⟨[10, 20, 30], 4⟩ :=
  ⟨rfl, by decide⟩

/-- C3 amended: in the in-place Insert/Emplace path, if the construction
of the new value throws (operation 0; at the end position this is the
element's own construction), or the move construction of the last element
into the new last slot throws (operation 1), the container's observable
state is exactly as before the call; for a throw during any element
operation, size and capacity are unchanged — but a throw during the
backward shift assignments or the final assignment may leave the live
elements partially shifted (only the basic guarantee holds there). -/
theorem emplace_inplace_throw_guarantees [Inhabited α] (v : Vector α) (i k : Nat) (x : α) :
    ((k = 0 ∨ (k = 1 ∧ i < v.size)) →
      v.EmplaceWithoutRelocationE (some k) i x = Except.error v) ∧
    (∀ u, v.EmplaceWithoutRelocationE (some k) i x = Except.error u →
      u.size = v.size ∧ u.capacity = v.capacity) := by
  constructor
  · intro hk
    unfold Vector.EmplaceWithoutRelocationE
    by_cases hie : i = v.size
    · rw [if_pos hie]
      rcases hk with h0 | ⟨h1, hlt⟩
      · rw [h0, if_pos rfl]
      · exact absurd hie (by omega)
    · rw [if_neg hie]
      rcases hk with h0 | ⟨h1, hlt⟩
      · rw [h0, if_pos rfl]
      · rw [h1, if_neg (by decide), if_pos rfl]
  · intro u hu
    exact emplaceWithoutRelocationE_error_state hu

theorem emplace_inplace_throw_guarantees_witness :
    Vector.EmplaceWithoutRelocationE (some 0) (⟨[10, 20, 30], 4⟩ : Vector Nat) 1 99
      = Except.error ⟨[10, 20, 30], 4⟩ ∧
    (⟨[10, 20, 20], 4⟩ : Vector Nat).size = (⟨[10, 20, 30], 4⟩ : Vector Nat).size ∧
    (⟨[10, 20, 20], 4⟩ : Vector Nat).capacity = (⟨[10, 20, 30], 4⟩ : Vector Nat).capacity := by
  have h1 := (emplace_inplace_throw_guarantees (⟨[10, 20, 30], 4⟩ : Vector Nat) 1 0 99).1
    (Or.inl rfl)
  have h2 := (emplace_inplace_throw_guarantees (⟨[10, 20, 30], 4⟩ : Vector Nat) 0 3 99).2
    ⟨[10, 20, 20], 4⟩ rfl
  exact ⟨h1, h2.1, h2.2⟩

/-- C4 counterexample: for an element type that is not copy-constructible
and whose move construction is not guaranteed failure-free
(is_nothrow_move_constructible = false, is_copy_constructible = false),
the code takes the move path while the claim ("the move path is taken
exactly when failure-free move is guaranteed") requires the copy path. -/
theorem relocation_choice_counterexample :
    relocationUsesMove false false = true ∧
    relocationUsesMoveSpec false false = false := by
  decide

/-- C4 amended: relocation during growth moves the elements exactly when
the element type's move construction is guaranteed not to fail OR the type
is not copy-constructible; it copy-constructs into the new block
otherwise. -/
theorem relocation_choice_condition :
    ∀ m c : Bool, (relocationUsesMove m c = true ↔ (m = true ∨ c = false)) := by
  decide

/-- C9: 0 ≤ size ≤ capacity holds for default, sized, copy, and move
construction and is preserved by every public operation under its stated
preconditions — copy/move assignment, Swap, Reserve, Resize,
Emplace/Insert (position ≤ size), EmplaceBack, PushBack, PopBack, Erase
(position < size) — and, for the fallible relocation/insert/assignment
models, both on success and on failure (the propagated error state also
satisfies the invariant). In Nat the lower bound 0 ≤ size is automatic. -/
theorem vector_invariant_preserved [Inhabited α] (v w : Vector α) (n i : Nat) (x d : α)
    (hv : Vinv v) (hw : Vinv w) :
    Vinv (Vector.mkDefault α) ∧
    Vinv (Vector.mkSized n d) ∧
    Vinv v.copyCtor ∧
    Vinv v.moveCtor.1 ∧ Vinv v.moveCtor.2 ∧
    Vinv (v.copyAssign w) ∧
    Vinv (v.moveAssign w).1 ∧ Vinv (v.moveAssign w).2 ∧
    Vinv (Vector.SwapOp v w).1 ∧ Vinv (Vector.SwapOp v w).2 ∧
    Vinv (v.Reserve n) ∧
    Vinv (v.Resize n d) ∧
    (i ≤ v.size → Vinv (v.Emplace i x).1 ∧ Vinv (v.Insert i x).1) ∧
    Vinv (v.EmplaceBack x) ∧ Vinv (v.PushBack x) ∧
    Vinv v.PopBack ∧
    (i < v.size → Vinv (v.Erase i).1) ∧
    (∀ th u, v.ReserveCopyE th n = Except.error u → Vinv u) ∧
    (∀ th u, v.ReserveCopyE th n = Except.ok u → Vinv u) ∧
    (∀ b th u, i ≤ v.size → v.EmplaceWithRelocationCopyE b th i x = Except.error u → Vinv u) ∧
    (∀ b th u, i ≤ v.size → v.EmplaceWithRelocationCopyE b th i x = Except.ok u → Vinv u) ∧
    (∀ th u, v.EmplaceWithoutRelocationE th i x = Except.error u → Vinv u) ∧
    (∀ th u, v.size < v.capacity → v.EmplaceWithoutRelocationE th i x = Except.ok u → Vinv u) ∧
    (∀ th u, v.copyAssignE th w = Except.error u → Vinv u) ∧
    (∀ th u, v.copyAssignE th w = Except.ok u → Vinv u) := by
  have hlen : v.elems.length = v.size := rfl
  have hwlen : w.elems.length = w.size := rfl
  have hv2 : v.size ≤ v.capacity := hv
  have hw2 : w.size ≤ w.capacity := hw
  refine ⟨?_, ?_, ?_, hv, ?_, ?_, hw, hv, hw, hv, ?_, ?_, ?_, ?_, ?_, ?_, ?_,
    ?_, ?_, ?_, ?_, ?_, ?_, ?_, ?_⟩
  · exact Nat.le_refl 0
  · show (List.replicate n d).length ≤ n
    rw [List.length_replicate]
  · exact Nat.le_refl _
  · exact Nat.le_refl 0
  · -- copy assignment
    show (v.copyAssign w).size ≤ (v.copyAssign w).capacity
    unfold Vector.copyAssign
    by_cases hc : w.size ≤ v.capacity
    · rw [if_pos hc]
      show (v.copyAssignInPlace w).elems.length ≤ _
      rw [copyAssignInPlace_elems]
      exact hwlen.symm ▸ hc
    · rw [if_neg hc]
      exact Nat.le_refl _
  · -- Reserve
    show (v.Reserve n).size ≤ (v.Reserve n).capacity
    unfold Vector.Reserve
    by_cases hc : n ≤ v.capacity
    · rw [if_pos hc]; exact hv
    · rw [if_neg hc]
      show v.size ≤ n
      omega
  · -- Resize
    show (v.Resize n d).size ≤ (v.Resize n d).capacity
    unfold Vector.Resize
    by_cases hs : n < v.size
    · rw [if_pos hs]
      show (v.elems.take n).length ≤ v.capacity
      rw [List.length_take]
      omega
    · rw [if_neg hs]
      by_cases hc : n > v.capacity
      · rw [if_pos hc]
        unfold Vector.Reserve
        rw [if_neg (by omega)]
        show (v.elems ++ List.replicate (n - v.size) d).length ≤ max (v.capacity * 2) n
        rw [List.length_append, List.length_replicate]
        omega
      · rw [if_neg hc]
        show (v.elems ++ List.replicate (n - v.size) d).length ≤ v.capacity
        rw [List.length_append, List.length_replicate]
        omega
  · -- Emplace / Insert
    intro hi
    have he := emplace_elems v i x hi
    have hsz : (v.Emplace i x).1.size = v.size + 1 := by
      show (v.Emplace i x).1.elems.length = v.size + 1
      rw [he.1]
      exact insertShift_length v.elems i x hi
    have hinv : Vinv (v.Emplace i x).1 := by
      unfold Vinv
      rw [hsz, he.2]
      by_cases hc : v.size < v.capacity
      · rw [if_pos hc]; omega
      · rw [if_neg hc]
        by_cases h0 : v.size = 0
        · rw [if_pos h0]; omega
        · rw [if_neg h0]; omega
    exact ⟨hinv, hinv⟩
  · -- EmplaceBack
    have he := emplace_elems v v.size x (Nat.le_refl _)
    show Vinv (v.Emplace v.size x).1
    unfold Vinv
    have hsz : (v.Emplace v.size x).1.size = v.size + 1 := by
      show (v.Emplace v.size x).1.elems.length = v.size + 1
      rw [he.1]
      exact insertShift_length v.elems v.size x (Nat.le_refl _)
    rw [hsz, he.2]
    by_cases hc : v.size < v.capacity
    · rw [if_pos hc]; omega
    · rw [if_neg hc]
      by_cases h0 : v.size = 0
      · rw [if_pos h0]; omega
      · rw [if_neg h0]; omega
  · -- PushBack
    have he := emplace_elems v v.size x (Nat.le_refl _)
    show Vinv (v.Emplace v.size x).1
    unfold Vinv
    have hsz : (v.Emplace v.size x).1.size = v.size + 1 := by
      show (v.Emplace v.size x).1.elems.length = v.size + 1
      rw [he.1]
      exact insertShift_length v.elems v.size x (Nat.le_refl _)
    rw [hsz, he.2]
    by_cases hc : v.size < v.capacity
    · rw [if_pos hc]; omega
    · rw [if_neg hc]
      by_cases h0 : v.size = 0
      · rw [if_pos h0]; omega
      · rw [if_neg h0]; omega
  · -- PopBack
    show v.PopBack.size ≤ v.PopBack.capacity
    unfold Vector.PopBack
    by_cases hz : v.size ≠ 0
    · rw [if_pos hz]
      show v.elems.dropLast.length ≤ v.capacity
      rw [List.length_dropLast]
      omega
    · rw [if_neg hz]; exact hv
  · -- Erase
    intro hi
    show ((v.elems.take i ++ v.elems.drop (i + 1) ++ v.elems.drop (v.size - 1)).take
      (v.size - 1)).length ≤ v.capacity
    rw [List.length_take]
    omega
  · intro th u hu
    rw [reserveCopyE_error_state hu]
    exact hv
  · intro th u hu
    obtain ⟨he, hcap⟩ := reserveCopyE_ok_state hu
    rcases hcap with h | ⟨hlt, h⟩
    · rw [h]; exact hv
    · show u.elems.length ≤ u.capacity
      rw [he, h]
      omega
  · intro b th u _ hu
    rw [emplaceWithRelocationCopyE_error_state hu]
    exact hv
  · intro b th u hi hu
    obtain ⟨he, hcap⟩ := emplaceWithRelocationCopyE_ok_state hu
    show u.elems.length ≤ u.capacity
    rw [he, hcap, insertShift_length v.elems i x hi]
    by_cases h0 : v.size = 0
    · rw [if_pos h0]; omega
    · rw [if_neg h0]; omega
  · intro th u hu
    obtain ⟨hs, hc⟩ := emplaceWithoutRelocationE_error_state hu
    show u.size ≤ u.capacity
    rw [hs, hc]
    exact hv
  · intro th u hcap hu
    obtain ⟨hs, hc⟩ := emplaceWithoutRelocationE_ok_state hu
    show u.size ≤ u.capacity
    rw [hs, hc]
    omega
  · intro th u hu
    unfold Vector.copyAssignE at hu
    split at hu
    · cases hu
    · split at hu
      · cases hu
        exact hv
      · cases hu
  · intro th u hu
    unfold Vector.copyAssignE at hu
    split at hu
    · rename_i hfit
      cases hu
      show (v.copyAssignInPlace w).elems.length ≤ _
      rw [copyAssignInPlace_elems]
      exact hwlen.symm ▸ hfit
    · split at hu
      · cases hu
      · rename_i copied hcopied
        cases hu
        show copied.length ≤ w.size
        rw [uninitializedCopyFrom_ok_eq 0 hcopied]
        exact Nat.le_of_eq hwlen

theorem vector_invariant_preserved_witness :
    Vinv (Vector.mkDefault Nat) ∧
    Vinv ((⟨[1, 2], 3⟩ : Vector Nat).Resize 7 0) ∧
    Vinv ((⟨[1, 2], 3⟩ : Vector Nat).Emplace 1 9).1 ∧
    Vinv ((⟨[1, 2], 3⟩ : Vector Nat).Erase 1).1 := by
  have h := vector_invariant_preserved (⟨[1, 2], 3⟩ : Vector Nat) (⟨[5], 1⟩ : Vector Nat)
    7 1 9 0 (by decide) (by decide)
  obtain ⟨h1, -, -, -, -, -, -, -, -, -, -, h12, h13, -, -, -, h17, -⟩ := h
  exact ⟨h1, h12, (h13 (by decide)).1, h17 (by decide)⟩

end AdvancedVector
